import Mathlib

set_option linter.unusedVariables false

/-!
Shallow embedding of `src/graph/graph.py`: a small library that builds
standard graph families (path, cycle, complete, star), derives adjacency
representations and computes degree statistics.

Python dicts are embedded as association lists (`List (Nat × β)`) whose key
order is insertion order; Python exceptions (`TypeError`, `ValueError`)
become an `Except PyError` result; the dynamically typed `num_nodes`
argument becomes a `PyValue` (an integer or some non-integer value).
-/

/-- A Python value passed as the `num_nodes` argument: either an `int`
or a non-integer value, described only by the name of its type. -/
inductive PyValue where
  | int (n : Int)
  | other (typeName : String)
deriving DecidableEq, Repr

/-- The two kinds of exceptions `graph.py` raises. -/
inductive PyError where
  | typeError (msg : String)
  | valueError (msg : String)
deriving DecidableEq, Repr

/-- The `Graph` namedtuple: `Graph = namedtuple("Graph", ["nodes", "edges", "is_directed"])`.
Node identifiers are integers in practice (`0..n-1` for all constructors). -/
structure Graph where
  nodes : List Nat
  edges : List (Nat × Nat)
  is_directed : Bool
deriving DecidableEq, Repr

/-- The dict comprehension `adj = {node: [] for node in graph.nodes}` of
`adjacency_dict` (graph.py line 25). -/
def emptyAdj (nodes : List Nat) : List (Nat × List Nat) :=
  nodes.map (fun node => (node, []))

/-- One `adj[node1].append(node2)` step of `adjacency_dict`: append `v` to the
list stored at key `k`. A key absent from the dict leaves the dict unchanged
(Python would raise `KeyError`; every claim assumes edge endpoints are members
of `graph.nodes`, which rules that case out). -/
def adjAppend (adj : List (Nat × List Nat)) (k v : Nat) : List (Nat × List Nat) :=
  adj.map (fun p => if p.1 = k then (p.1, p.2 ++ [v]) else p)

/-- The body of the `for edge in graph.edges` loop of `adjacency_dict`
(graph.py lines 26-30): append `node2` to `node1`'s list, and, if the graph is
undirected, `node1` to `node2`'s list. -/
def adjInsertEdge (is_directed : Bool) (adj : List (Nat × List Nat)) (edge : Nat × Nat) :
    List (Nat × List Nat) :=
  let afterFirst := adjAppend adj edge.1 edge.2
  if is_directed then afterFirst else adjAppend afterFirst edge.2 edge.1

/-- `adjacency_dict(graph)` (graph.py lines 21-31). -/
def adjacency_dict (graph : Graph) : List (Nat × List Nat) :=
  graph.edges.foldl (adjInsertEdge graph.is_directed) (emptyAdj graph.nodes)

/-- One `adj[node1][node2] += 1` step of `adjacency_matrix`. An out-of-range
index leaves the matrix unchanged (Python would raise `IndexError`; the claims
assume the documented precondition that rules that out). -/
def matIncr (m : List (List Nat)) (i j : Nat) : List (List Nat) :=
  m.set i ((m.getD i []).set j ((m.getD i []).getD j 0 + 1))

/-- The body of the `for edge in graph.edges` loop of `adjacency_matrix`
(graph.py lines 40-44). -/
def matInsertEdge (is_directed : Bool) (m : List (List Nat)) (edge : Nat × Nat) :
    List (List Nat) :=
  let afterFirst := matIncr m edge.1 edge.2
  if is_directed then afterFirst else matIncr afterFirst edge.2 edge.1

/-- `adjacency_matrix(graph)` (graph.py lines 33-45): starts from the
`len(nodes) x len(nodes)` zero matrix and counts every edge. -/
def adjacency_matrix (graph : Graph) : List (List Nat) :=
  graph.edges.foldl (matInsertEdge graph.is_directed)
    (graph.nodes.map (fun _ => graph.nodes.map (fun _ => 0)))

/-- `_validate_num_nodes(num_nodes)` (graph.py lines 58-66): `TypeError` for a
non-integer, `ValueError` for an integer below 1. It returns the validated
integer so that callers, which in Python keep using `num_nodes` after the
call, can use it. -/
def _validate_num_nodes (num_nodes : PyValue) : Except PyError Int :=
  match num_nodes with
  | .other typeName => .error (.typeError ("num_nodes must be an integer; type=" ++ typeName))
  | .int n =>
    if n < 1 then .error (.valueError "num_nodes must be positive")
    else .ok n

/-- `path_graph(num_nodes, is_directed=False)` (graph.py lines 69-78); the
Python default `is_directed=False` is passed explicitly here. -/
def path_graph (num_nodes : PyValue) (is_directed : Bool) : Except PyError Graph :=
  match _validate_num_nodes num_nodes with
  | .error e => .error e
  | .ok n =>
    .ok { nodes := List.range n.toNat
          edges := (List.range (n.toNat - 1)).map (fun i => (i, i + 1))
          is_directed := is_directed }

/-- `cycle_graph(num_nodes, is_directed=False)` (graph.py lines 80-88): the
path graph with the closing edge `(num_nodes - 1, 0)` appended. The final
match arm is unreachable, since `path_graph` only succeeds on integer input. -/
def cycle_graph (num_nodes : PyValue) (is_directed : Bool) : Except PyError Graph :=
  match path_graph num_nodes is_directed, num_nodes with
  | .error e, _ => .error e
  | .ok base_path, .int n =>
    .ok { base_path with edges := base_path.edges ++ [((n - 1).toNat, 0)] }
  | .ok base_path, .other _ => .ok base_path

/-- `itertools.combinations(l, 2)`: all pairs of elements of `l` taken at
distinct positions in position order. -/
def combinations2 : List Nat → List (Nat × Nat)
  | [] => []
  | x :: xs => xs.map (fun y => (x, y)) ++ combinations2 xs

/-- `complete_graph(num_nodes)` (graph.py lines 90-99): always undirected,
edges `list(combinations(nodes, 2))`. -/
def complete_graph (num_nodes : PyValue) : Except PyError Graph :=
  match _validate_num_nodes num_nodes with
  | .error e => .error e
  | .ok n =>
    .ok { nodes := List.range n.toNat
          edges := combinations2 (List.range n.toNat)
          is_directed := false }

/-- `star_graph(num_nodes)` (graph.py lines 101-110): always undirected, hub
node `0`, edges `(0, i)` for `i in range(1, num_nodes)`. -/
def star_graph (num_nodes : PyValue) : Except PyError Graph :=
  match _validate_num_nodes num_nodes with
  | .error e => .error e
  | .ok n =>
    .ok { nodes := List.range n.toNat
          edges := (List.range' 1 (n.toNat - 1)).map (fun i => (0, i))
          is_directed := false }

/-- `_degrees(graph)` (graph.py lines 112-119): each node maps to the length
of its adjacency list. -/
def _degrees (graph : Graph) : List (Nat × Nat) :=
  (adjacency_dict graph).map (fun p => (p.1, p.2.length))

/-- `degrees(graph)` (graph.py lines 121-125): undirected graphs only. -/
def degrees (graph : Graph) : Except PyError (List (Nat × Nat)) :=
  if graph.is_directed then .error (.valueError "Cannot call degrees() on a directed graph")
  else .ok (_degrees graph)

/-- `out_degrees(graph)` (graph.py lines 127-131): directed graphs only. -/
def out_degrees (graph : Graph) : Except PyError (List (Nat × Nat)) :=
  if graph.is_directed then .ok (_degrees graph)
  else .error (.valueError "Cannot call out_degrees() on an undirected graph")

/-- The `undirected_graph` local value of `total_degrees` (graph.py line 138):
the same nodes and edges reinterpreted as undirected. -/
def undirected_graph (graph : Graph) : Graph :=
  { nodes := graph.nodes, edges := graph.edges, is_directed := false }

/-- `total_degrees(graph)` (graph.py lines 133-139): directed graphs only. -/
def total_degrees (graph : Graph) : Except PyError (List (Nat × Nat)) :=
  if !graph.is_directed then
    .error (.valueError "Cannot call total_degrees() on an undirected graph")
  else degrees (undirected_graph graph)

/-- The `reversed_graph` local value of `in_degrees` (graph.py lines 146-147):
every edge's endpoints swapped, still directed. -/
def reversed_graph (graph : Graph) : Graph :=
  { nodes := graph.nodes
    edges := graph.edges.map (fun e => (e.2, e.1))
    is_directed := true }

/-- `in_degrees(graph)` (graph.py lines 141-148): directed graphs only. The
error message mentions `total_degrees`, a slip kept verbatim from the source. -/
def in_degrees (graph : Graph) : Except PyError (List (Nat × Nat)) :=
  if !graph.is_directed then
    .error (.valueError "Cannot call total_degrees() on an undirected graph.")
  else out_degrees (reversed_graph graph)

/-- Python's built-in `min` on a sequence of naturals: `ValueError` when the
sequence is empty. -/
def pyMin (l : List Nat) : Except PyError Nat :=
  match l with
  | [] => .error (.valueError "min() arg is an empty sequence")
  | x :: xs => .ok (xs.foldl Nat.min x)

/-- Python's built-in `max` on a sequence of naturals: `ValueError` when the
sequence is empty. -/
def pyMax (l : List Nat) : Except PyError Nat :=
  match l with
  | [] => .error (.valueError "max() arg is an empty sequence")
  | x :: xs => .ok (xs.foldl Nat.max x)

/-- `dict.values()` of a degree mapping. -/
def dictValues (d : List (Nat × Nat)) : List Nat :=
  d.map (fun p => p.2)

/-- `min_degree(graph)` (graph.py lines 150-152). -/
def min_degree (graph : Graph) : Except PyError Nat :=
  match degrees graph with
  | .error e => .error e
  | .ok d => pyMin (dictValues d)

/-- `min_out_degree(graph)` (graph.py lines 154-156). -/
def min_out_degree (graph : Graph) : Except PyError Nat :=
  match out_degrees graph with
  | .error e => .error e
  | .ok d => pyMin (dictValues d)

/-- `min_in_degree(graph)` (graph.py lines 158-160). -/
def min_in_degree (graph : Graph) : Except PyError Nat :=
  match in_degrees graph with
  | .error e => .error e
  | .ok d => pyMin (dictValues d)

/-- `min_total_degree(graph)` (graph.py lines 162-164). -/
def min_total_degree (graph : Graph) : Except PyError Nat :=
  match total_degrees graph with
  | .error e => .error e
  | .ok d => pyMin (dictValues d)

/-- `max_degree(graph)` (graph.py lines 166-168). -/
def max_degree (graph : Graph) : Except PyError Nat :=
  match degrees graph with
  | .error e => .error e
  | .ok d => pyMax (dictValues d)

/-- `max_out_degree(graph)` (graph.py lines 170-172). -/
def max_out_degree (graph : Graph) : Except PyError Nat :=
  match out_degrees graph with
  | .error e => .error e
  | .ok d => pyMax (dictValues d)

/-- `max_in_degree(graph)` (graph.py lines 174-176). -/
def max_in_degree (graph : Graph) : Except PyError Nat :=
  match in_degrees graph with
  | .error e => .error e
  | .ok d => pyMax (dictValues d)

/-- `max_total_degree(graph)` (graph.py lines 178-180). -/
def max_total_degree (graph : Graph) : Except PyError Nat :=
  match total_degrees graph with
  | .error e => .error e
  | .ok d => pyMax (dictValues d)

/-- Follows the spec's words (§4.3, claim C3): the contribution of a single
edge to node `u`'s neighbour list — `v` when the edge leaves `u`, and for an
undirected graph additionally the other endpoint when the edge enters `u`. -/
def specEdgeContrib (is_directed : Bool) (u : Nat) (e : Nat × Nat) : List Nat :=
  (if u = e.1 then [e.2] else []) ++ (if is_directed = false ∧ u = e.2 then [e.1] else [])

/-- Follows the spec's words (§4.3, claim C3): the ordered sequence of
neighbours of `u`, in edge-insertion order, duplicates preserved. -/
def specNeighbors (graph : Graph) (u : Nat) : List Nat :=
  graph.edges.flatMap (specEdgeContrib graph.is_directed u)

/-! ### Association-list machinery for `adjacency_dict` -/

theorem adjAppend_map_fst (adj : List (Nat × List Nat)) (k v : Nat) :
    (adjAppend adj k v).map Prod.fst = adj.map Prod.fst := by
  simp only [adjAppend, List.map_map]
  apply List.map_congr_left
  intro p _
  by_cases h : p.1 = k <;> simp [h]

theorem lookup_adjAppend (adj : List (Nat × List Nat)) (k v u : Nat) :
    (adjAppend adj k v).lookup u
      = (adj.lookup u).map (fun l => if u = k then l ++ [v] else l) := by
  induction adj with
  | nil => rfl
  | cons p rest ih =>
    obtain ⟨pk, pv⟩ := p
    by_cases hpk : pk = k
    · subst hpk
      by_cases hup : u = pk
      · subst hup
        rw [show adjAppend ((u, pv) :: rest) u v = (u, pv ++ [v]) :: adjAppend rest u v from by
              simp [adjAppend],
          List.lookup_cons, List.lookup_cons, show (u == u) = true from by simp]
        simp
      · rw [show adjAppend ((pk, pv) :: rest) pk v = (pk, pv ++ [v]) :: adjAppend rest pk v from by
              simp [adjAppend],
          List.lookup_cons, List.lookup_cons, show (u == pk) = false from by simp [hup]]
        exact ih
    · rw [show adjAppend ((pk, pv) :: rest) k v = (pk, pv) :: adjAppend rest k v from by
            simp [adjAppend, hpk],
        List.lookup_cons, List.lookup_cons]
      by_cases hup : u = pk
      · rw [show (u == pk) = true from by simp [hup]]
        simp [hup, hpk]
      · rw [show (u == pk) = false from by simp [hup]]
        exact ih

theorem lookup_emptyAdj (nodes : List Nat) (u : Nat) (hu : u ∈ nodes) :
    (emptyAdj nodes).lookup u = some [] := by
  induction nodes with
  | nil => cases hu
  | cons x rest ih =>
    rw [show emptyAdj (x :: rest) = (x, []) :: emptyAdj rest from rfl, List.lookup_cons]
    by_cases h : u = x
    · rw [show (u == x) = true from by simp [h]]
    · rw [show (u == x) = false from by simp [h]]
      rcases List.mem_cons.mp hu with h1 | h1
      · exact absurd h1 h
      · exact ih h1

theorem map_fst_emptyAdj (nodes : List Nat) : (emptyAdj nodes).map Prod.fst = nodes := by
  unfold emptyAdj
  rw [List.map_map]
  exact List.map_id nodes

theorem lookup_adjInsertEdge (dir : Bool) (adj : List (Nat × List Nat)) (e : Nat × Nat)
    (u : Nat) (cur : List Nat) (hu : adj.lookup u = some cur) :
    (adjInsertEdge dir adj e).lookup u = some (cur ++ specEdgeContrib dir u e) := by
  have h1 := lookup_adjAppend adj e.1 e.2 u
  rw [hu] at h1
  cases dir with
  | true =>
    rw [show adjInsertEdge true adj e = adjAppend adj e.1 e.2 from rfl, h1]
    by_cases hu1 : u = e.1 <;> simp [specEdgeContrib, hu1]
  | false =>
    have h2 := lookup_adjAppend (adjAppend adj e.1 e.2) e.2 e.1 u
    rw [h1] at h2
    rw [show adjInsertEdge false adj e = adjAppend (adjAppend adj e.1 e.2) e.2 e.1 from rfl, h2]
    by_cases hu1 : u = e.1 <;> by_cases hu2 : u = e.2 <;> by_cases he : e.1 = e.2 <;>
      simp_all [specEdgeContrib]

theorem lookup_foldl_adjInsertEdge (dir : Bool) (edges : List (Nat × Nat))
    (adj : List (Nat × List Nat)) (u : Nat) (cur : List Nat)
    (hu : adj.lookup u = some cur) :
    (edges.foldl (adjInsertEdge dir) adj).lookup u
      = some (cur ++ edges.flatMap (specEdgeContrib dir u)) := by
  induction edges generalizing adj cur with
  | nil => simpa using hu
  | cons e rest ih =>
    rw [List.foldl_cons, List.flatMap_cons,
      ih (adjInsertEdge dir adj e) (cur ++ specEdgeContrib dir u e)
        (lookup_adjInsertEdge dir adj e u cur hu), List.append_assoc]

theorem map_fst_foldl_adjInsertEdge (dir : Bool) (edges : List (Nat × Nat))
    (adj : List (Nat × List Nat)) :
    (edges.foldl (adjInsertEdge dir) adj).map Prod.fst = adj.map Prod.fst := by
  induction edges generalizing adj with
  | nil => rfl
  | cons e rest ih =>
    rw [List.foldl_cons, ih]
    cases dir <;> simp [adjInsertEdge, adjAppend_map_fst]

theorem adjacency_dict_keys (G : Graph) : (adjacency_dict G).map Prod.fst = G.nodes := by
  rw [adjacency_dict, map_fst_foldl_adjInsertEdge, map_fst_emptyAdj]

theorem adjacency_dict_lookup (G : Graph) (u : Nat) (hu : u ∈ G.nodes) :
    (adjacency_dict G).lookup u = some (specNeighbors G u) := by
  rw [adjacency_dict, specNeighbors,
    lookup_foldl_adjInsertEdge G.is_directed G.edges (emptyAdj G.nodes) u []
      (lookup_emptyAdj G.nodes u hu), List.nil_append]

/-- C3: for every graph whose edge endpoints are all members of its nodes,
`adjacency_dict(graph)` returns a mapping whose keys are exactly the graph's
nodes and whose value at each node `u` is the sequence of out-neighbors of `u`
in edge-insertion order with duplicates preserved; when `is_directed` is false
each edge `(u, v)` additionally contributes `u` to `v`'s list, and an
undirected self-loop `(u, u)` contributes `u` twice to `u`'s own list (the
content of `specNeighbors`). -/
theorem adjacency_dict_spec (G : Graph) (hnodup : G.nodes.Nodup)
    (hends : ∀ e ∈ G.edges, e.1 ∈ G.nodes ∧ e.2 ∈ G.nodes) :
    (adjacency_dict G).map Prod.fst = G.nodes ∧
      ∀ u ∈ G.nodes, (adjacency_dict G).lookup u = some (specNeighbors G u) :=
  ⟨adjacency_dict_keys G, fun u hu => adjacency_dict_lookup G u hu⟩

theorem adjacency_dict_spec_witness :
    (([0, 1] : List Nat).Nodup ∧
      (∀ e ∈ ([(0, 0), (0, 1)] : List (Nat × Nat)),
        e.1 ∈ ([0, 1] : List Nat) ∧ e.2 ∈ ([0, 1] : List Nat))) ∧
    ((adjacency_dict ⟨[0, 1], [(0, 0), (0, 1)], false⟩).map Prod.fst = [0, 1] ∧
      ∀ u ∈ ([0, 1] : List Nat),
        (adjacency_dict ⟨[0, 1], [(0, 0), (0, 1)], false⟩).lookup u
          = some (specNeighbors ⟨[0, 1], [(0, 0), (0, 1)], false⟩ u)) :=
  ⟨⟨by decide, by decide⟩,
    adjacency_dict_spec ⟨[0, 1], [(0, 0), (0, 1)], false⟩ (by decide) (by decide)⟩

/-! ### Degree-sum machinery (handshake lemma) -/

theorem sum_lengths_adjAppend (adj : List (Nat × List Nat)) (k v : Nat) :
    ((adjAppend adj k v).map (fun p => p.2.length)).sum
      = (adj.map (fun p => p.2.length)).sum + (adj.map Prod.fst).count k := by
  induction adj with
  | nil => rfl
  | cons p rest ih =>
    obtain ⟨pk, pv⟩ := p
    by_cases h : pk = k
    · subst h
      simp [adjAppend, List.count_cons] at ih ⊢
      omega
    · simp [adjAppend, List.count_cons, h] at ih ⊢
      omega

theorem sum_lengths_foldl_adjInsertEdge (edges : List (Nat × Nat))
    (nodes : List Nat) (hnodup : nodes.Nodup)
    (hends : ∀ e ∈ edges, e.1 ∈ nodes ∧ e.2 ∈ nodes)
    (adj : List (Nat × List Nat)) (hkeys : adj.map Prod.fst = nodes) :
    ((edges.foldl (adjInsertEdge false) adj).map (fun p => p.2.length)).sum
      = (adj.map (fun p => p.2.length)).sum + 2 * edges.length := by
  induction edges generalizing adj with
  | nil => simp
  | cons e rest ih =>
    have he := hends e (List.mem_cons_self e rest)
    have hkeys1 : (adjAppend adj e.1 e.2).map Prod.fst = nodes := by
      rw [adjAppend_map_fst, hkeys]
    have hkeys2 : (adjInsertEdge false adj e).map Prod.fst = nodes := by
      rw [show adjInsertEdge false adj e = adjAppend (adjAppend adj e.1 e.2) e.2 e.1 from rfl,
        adjAppend_map_fst, hkeys1]
    rw [List.foldl_cons,
      ih (fun x hx => hends x (List.mem_cons_of_mem e hx)) _ hkeys2]
    have hc1 : (adj.map Prod.fst).count e.1 = 1 := by
      rw [hkeys]; exact List.count_eq_one_of_mem hnodup he.1
    have hc2 : ((adjAppend adj e.1 e.2).map Prod.fst).count e.2 = 1 := by
      rw [hkeys1]; exact List.count_eq_one_of_mem hnodup he.2
    rw [show adjInsertEdge false adj e = adjAppend (adjAppend adj e.1 e.2) e.2 e.1 from rfl,
      sum_lengths_adjAppend, sum_lengths_adjAppend, hc1, hc2, List.length_cons]
    omega

/-- C1: handshake round-trip — for every graph `G` with `G.is_directed == false`
and every edge endpoint a member of `G.nodes`, the sum of the values of
`degrees(G)` equals `2 * len(G.edges)`. -/
theorem handshake_round_trip (G : Graph) (hdir : G.is_directed = false)
    (hnodup : G.nodes.Nodup)
    (hends : ∀ e ∈ G.edges, e.1 ∈ G.nodes ∧ e.2 ∈ G.nodes) :
    ∃ d, degrees G = .ok d ∧ (dictValues d).sum = 2 * G.edges.length := by
  refine ⟨_degrees G, by simp [degrees, hdir], ?_⟩
  have hinit : ∀ ns : List Nat, ((emptyAdj ns).map (fun p => p.2.length)).sum = 0 := by
    intro ns
    induction ns with
    | nil => rfl
    | cons x xs ih => simpa [emptyAdj] using ih
  have hinit := hinit G.nodes
  have h := sum_lengths_foldl_adjInsertEdge G.edges G.nodes hnodup hends
    (emptyAdj G.nodes) (map_fst_emptyAdj G.nodes)
  rw [hinit, Nat.zero_add] at h
  unfold dictValues _degrees adjacency_dict
  rw [hdir, List.map_map]
  exact h

theorem handshake_round_trip_witness :
    ((⟨[0, 1, 2], [(0, 1), (1, 2)], false⟩ : Graph).is_directed = false ∧
      ([0, 1, 2] : List Nat).Nodup ∧
      ∀ e ∈ ([(0, 1), (1, 2)] : List (Nat × Nat)),
        e.1 ∈ ([0, 1, 2] : List Nat) ∧ e.2 ∈ ([0, 1, 2] : List Nat)) ∧
    ∃ d, degrees ⟨[0, 1, 2], [(0, 1), (1, 2)], false⟩ = .ok d ∧
      (dictValues d).sum = 2 * (⟨[0, 1, 2], [(0, 1), (1, 2)], false⟩ : Graph).edges.length :=
  ⟨⟨rfl, by decide, by decide⟩,
    handshake_round_trip ⟨[0, 1, 2], [(0, 1), (1, 2)], false⟩ rfl (by decide) (by decide)⟩

/-- C2: for every integer `n >= 1` and either directedness flag,
`cycle_graph(n, d)` returns a graph whose nodes are `0..n-1`, whose
`is_directed` flag is `d`, and whose edge sequence is exactly the path edges
`(i, i+1)` for `i` in `0..n-2` followed by the single closing edge `(n-1, 0)`;
for `n == 1` the edge list is exactly `[(0, 0)]`. -/
theorem cycle_graph_spec (n : Int) (d : Bool) (h : 1 ≤ n) :
    cycle_graph (.int n) d
      = .ok { nodes := List.range n.toNat
              edges := (List.range (n.toNat - 1)).map (fun i => (i, i + 1)) ++ [(n.toNat - 1, 0)]
              is_directed := d } := by
  have hlt : ¬ n < 1 := by omega
  have ht : (n - 1).toNat = n.toNat - 1 := by omega
  simp [cycle_graph, path_graph, _validate_num_nodes, hlt, ht]

theorem cycle_graph_spec_witness :
    ((1 : Int) ≤ 1 ∧
      cycle_graph (.int 1) false = .ok { nodes := [0], edges := [(0, 0)], is_directed := false }) ∧
    ((1 : Int) ≤ 4 ∧
      cycle_graph (.int 4) true
        = .ok { nodes := [0, 1, 2, 3], edges := [(0, 1), (1, 2), (2, 3), (3, 0)],
                is_directed := true }) := by
  constructor
  · exact ⟨by decide, by rw [cycle_graph_spec 1 false (by decide)]; rfl⟩
  · exact ⟨by decide, by rw [cycle_graph_spec 4 true (by decide)]; rfl⟩

/-! ### Degree lookup machinery -/

theorem lookup_map_length (d : List (Nat × List Nat)) (u : Nat) :
    (d.map (fun p => (p.1, p.2.length))).lookup u = (d.lookup u).map List.length := by
  induction d with
  | nil => rfl
  | cons p rest ih =>
    obtain ⟨pk, pv⟩ := p
    rw [List.map_cons, List.lookup_cons, List.lookup_cons]
    by_cases h : u = pk
    · rw [show (u == pk) = true from by simp [h]]
      rfl
    · rw [show (u == pk) = false from by simp [h]]
      exact ih

theorem length_flatMap_specEdgeContrib (dir : Bool) (u : Nat) (edges : List (Nat × Nat)) :
    (edges.flatMap (specEdgeContrib dir u)).length
      = edges.countP (fun e => u == e.1)
        + (if dir then 0 else edges.countP (fun e => u == e.2)) := by
  induction edges with
  | nil => cases dir <;> simp
  | cons e rest ih =>
    obtain ⟨a, b⟩ := e
    rw [List.flatMap_cons, List.length_append, ih, List.countP_cons, List.countP_cons]
    by_cases h1 : u = a
    · subst h1
      by_cases h2 : u = b
      · subst h2
        cases dir <;> simp [specEdgeContrib] <;> omega
      · cases dir <;> simp [specEdgeContrib, h2] <;> omega
    · by_cases h2 : u = b
      · subst h2
        cases dir <;> simp [specEdgeContrib, h1] <;> omega
      · cases dir <;> simp [specEdgeContrib, h1, h2] <;> omega

/-- C4: for every directed graph `G` whose edge endpoints are members of
`G.nodes`, `total_degrees(G)` maps each node `v` to
`in_degrees(G)[v] + out_degrees(G)[v]` (a self-loop `(v, v)` contributes 1 to
the in-degree and 1 to the out-degree, hence 2 to the total degree). -/
theorem total_degrees_split (G : Graph) (hdir : G.is_directed = true)
    (hnodup : G.nodes.Nodup)
    (hends : ∀ e ∈ G.edges, e.1 ∈ G.nodes ∧ e.2 ∈ G.nodes) :
    ∃ dt di dout, total_degrees G = .ok dt ∧ in_degrees G = .ok di ∧
      out_degrees G = .ok dout ∧
      ∀ v ∈ G.nodes, ∃ a b c, dt.lookup v = some a ∧ di.lookup v = some b ∧
        dout.lookup v = some c ∧ a = b + c := by
  refine ⟨_degrees (undirected_graph G), _degrees (reversed_graph G), _degrees G,
    ?_, ?_, ?_, ?_⟩
  · simp [total_degrees, hdir, degrees, undirected_graph]
  · simp [in_degrees, hdir, out_degrees, reversed_graph]
  · simp [out_degrees, hdir]
  · intro v hv
    have hU : (adjacency_dict (undirected_graph G)).lookup v
        = some (specNeighbors (undirected_graph G) v) :=
      adjacency_dict_lookup (undirected_graph G) v hv
    have hR : (adjacency_dict (reversed_graph G)).lookup v
        = some (specNeighbors (reversed_graph G) v) :=
      adjacency_dict_lookup (reversed_graph G) v hv
    have hG : (adjacency_dict G).lookup v = some (specNeighbors G v) :=
      adjacency_dict_lookup G v hv
    refine ⟨(specNeighbors (undirected_graph G) v).length,
      (specNeighbors (reversed_graph G) v).length,
      (specNeighbors G v).length, ?_, ?_, ?_, ?_⟩
    · unfold _degrees
      rw [lookup_map_length, hU]
      rfl
    · unfold _degrees
      rw [lookup_map_length, hR]
      rfl
    · unfold _degrees
      rw [lookup_map_length, hG]
      rfl
    · have lenU : (specNeighbors (undirected_graph G) v).length
          = G.edges.countP (fun e => v == e.1) + G.edges.countP (fun e => v == e.2) := by
        have h := length_flatMap_specEdgeContrib false v G.edges
        simpa [specNeighbors, undirected_graph] using h
      have lenG : (specNeighbors G v).length = G.edges.countP (fun e => v == e.1) := by
        have h := length_flatMap_specEdgeContrib true v G.edges
        simpa [specNeighbors, hdir] using h
      have lenR : (specNeighbors (reversed_graph G) v).length
          = G.edges.countP (fun e => v == e.2) := by
        have h := length_flatMap_specEdgeContrib true v (G.edges.map (fun e => (e.2, e.1)))
        rw [List.countP_map] at h
        simpa [specNeighbors, reversed_graph, Function.comp] using h
      rw [lenU, lenG, lenR]
      exact Nat.add_comm _ _

theorem total_degrees_split_witness :
    ((⟨[0, 1], [(0, 1), (1, 1)], true⟩ : Graph).is_directed = true ∧
      ([0, 1] : List Nat).Nodup ∧
      ∀ e ∈ ([(0, 1), (1, 1)] : List (Nat × Nat)),
        e.1 ∈ ([0, 1] : List Nat) ∧ e.2 ∈ ([0, 1] : List Nat)) ∧
    ∃ dt di dout, total_degrees ⟨[0, 1], [(0, 1), (1, 1)], true⟩ = .ok dt ∧
      in_degrees ⟨[0, 1], [(0, 1), (1, 1)], true⟩ = .ok di ∧
      out_degrees ⟨[0, 1], [(0, 1), (1, 1)], true⟩ = .ok dout ∧
      ∀ v ∈ ([0, 1] : List Nat), ∃ a b c, dt.lookup v = some a ∧ di.lookup v = some b ∧
        dout.lookup v = some c ∧ a = b + c :=
  ⟨⟨rfl, by decide, by decide⟩,
    total_degrees_split ⟨[0, 1], [(0, 1), (1, 1)], true⟩ rfl (by decide) (by decide)⟩

/-- C5: directedness preconditions raise-iff — `degrees(G)` raises a value
error if and only if `G.is_directed == true`, and each of `out_degrees(G)`,
`in_degrees(G)` and `total_degrees(G)` raises a value error if and only if
`G.is_directed == false`; in the non-raising case each returns the
corresponding degree mapping. -/
theorem degree_raise_iff (G : Graph) (hnodup : G.nodes.Nodup)
    (hends : ∀ e ∈ G.edges, e.1 ∈ G.nodes ∧ e.2 ∈ G.nodes) :
    ((∃ m, degrees G = .error (.valueError m)) ↔ G.is_directed = true) ∧
    ((∃ m, out_degrees G = .error (.valueError m)) ↔ G.is_directed = false) ∧
    ((∃ m, in_degrees G = .error (.valueError m)) ↔ G.is_directed = false) ∧
    ((∃ m, total_degrees G = .error (.valueError m)) ↔ G.is_directed = false) ∧
    (G.is_directed = false → degrees G = .ok (_degrees G)) ∧
    (G.is_directed = true → out_degrees G = .ok (_degrees G)) ∧
    (G.is_directed = true → in_degrees G = .ok (_degrees (reversed_graph G))) ∧
    (G.is_directed = true → total_degrees G = .ok (_degrees (undirected_graph G))) := by
  cases hd : G.is_directed <;>
    simp [degrees, out_degrees, in_degrees, total_degrees, hd, undirected_graph,
      reversed_graph]

theorem degree_raise_iff_witness :
    (([0, 1] : List Nat).Nodup ∧
      ∀ e ∈ ([(0, 1)] : List (Nat × Nat)),
        e.1 ∈ ([0, 1] : List Nat) ∧ e.2 ∈ ([0, 1] : List Nat)) ∧
    (((∃ m, degrees ⟨[0, 1], [(0, 1)], true⟩ = .error (.valueError m)) ↔
        (⟨[0, 1], [(0, 1)], true⟩ : Graph).is_directed = true) ∧
      ((∃ m, out_degrees ⟨[0, 1], [(0, 1)], true⟩ = .error (.valueError m)) ↔
        (⟨[0, 1], [(0, 1)], true⟩ : Graph).is_directed = false) ∧
      ((∃ m, in_degrees ⟨[0, 1], [(0, 1)], true⟩ = .error (.valueError m)) ↔
        (⟨[0, 1], [(0, 1)], true⟩ : Graph).is_directed = false) ∧
      ((∃ m, total_degrees ⟨[0, 1], [(0, 1)], true⟩ = .error (.valueError m)) ↔
        (⟨[0, 1], [(0, 1)], true⟩ : Graph).is_directed = false) ∧
      ((⟨[0, 1], [(0, 1)], true⟩ : Graph).is_directed = false →
        degrees ⟨[0, 1], [(0, 1)], true⟩ = .ok (_degrees ⟨[0, 1], [(0, 1)], true⟩)) ∧
      ((⟨[0, 1], [(0, 1)], true⟩ : Graph).is_directed = true →
        out_degrees ⟨[0, 1], [(0, 1)], true⟩ = .ok (_degrees ⟨[0, 1], [(0, 1)], true⟩)) ∧
      ((⟨[0, 1], [(0, 1)], true⟩ : Graph).is_directed = true →
        in_degrees ⟨[0, 1], [(0, 1)], true⟩
          = .ok (_degrees (reversed_graph ⟨[0, 1], [(0, 1)], true⟩))) ∧
      ((⟨[0, 1], [(0, 1)], true⟩ : Graph).is_directed = true →
        total_degrees ⟨[0, 1], [(0, 1)], true⟩
          = .ok (_degrees (undirected_graph ⟨[0, 1], [(0, 1)], true⟩)))) :=
  ⟨⟨by decide, by decide⟩, degree_raise_iff ⟨[0, 1], [(0, 1)], true⟩ (by decide) (by decide)⟩

/-- C6: node-count validation — for every argument `x`, each of the four
generators raises a type error when `x` is not an integer, a value error when
`x` is an integer below 1, and returns a graph otherwise; `cycle_graph`
validates only indirectly through `path_graph`. -/
theorem generators_validate (x : PyValue) (d : Bool) :
    (match x with
     | .other _ =>
        (∃ m, path_graph x d = .error (.typeError m)) ∧
        (∃ m, cycle_graph x d = .error (.typeError m)) ∧
        (∃ m, complete_graph x = .error (.typeError m)) ∧
        (∃ m, star_graph x = .error (.typeError m))
     | .int n =>
        if n < 1 then
          (∃ m, path_graph x d = .error (.valueError m)) ∧
          (∃ m, cycle_graph x d = .error (.valueError m)) ∧
          (∃ m, complete_graph x = .error (.valueError m)) ∧
          (∃ m, star_graph x = .error (.valueError m))
        else
          (∃ g, path_graph x d = .ok g) ∧
          (∃ g, cycle_graph x d = .ok g) ∧
          (∃ g, complete_graph x = .ok g) ∧
          (∃ g, star_graph x = .ok g)) := by
  cases x with
  | other t =>
    simp [path_graph, cycle_graph, complete_graph, star_graph, _validate_num_nodes]
  | int n =>
    by_cases h : n < 1 <;>
      simp [path_graph, cycle_graph, complete_graph, star_graph, _validate_num_nodes, h]

/-! ### Constructor evaluation lemmas -/

theorem path_graph_eq (n : Int) (d : Bool) (h : 1 ≤ n) :
    path_graph (.int n) d
      = .ok { nodes := List.range n.toNat
              edges := (List.range (n.toNat - 1)).map (fun i => (i, i + 1))
              is_directed := d } := by
  have hlt : ¬ n < 1 := by omega
  simp [path_graph, _validate_num_nodes, hlt]

theorem cycle_graph_eq (n : Int) (d : Bool) (h : 1 ≤ n) :
    cycle_graph (.int n) d
      = .ok { nodes := List.range n.toNat
              edges := (List.range (n.toNat - 1)).map (fun i => (i, i + 1)) ++ [(n.toNat - 1, 0)]
              is_directed := d } := by
  have hlt : ¬ n < 1 := by omega
  have ht : (n - 1).toNat = n.toNat - 1 := by omega
  simp [cycle_graph, path_graph, _validate_num_nodes, hlt, ht]

theorem complete_graph_eq (n : Int) (h : 1 ≤ n) :
    complete_graph (.int n)
      = .ok { nodes := List.range n.toNat
              edges := combinations2 (List.range n.toNat)
              is_directed := false } := by
  have hlt : ¬ n < 1 := by omega
  simp [complete_graph, _validate_num_nodes, hlt]

theorem star_graph_eq (n : Int) (h : 1 ≤ n) :
    star_graph (.int n)
      = .ok { nodes := List.range n.toNat
              edges := (List.range' 1 (n.toNat - 1)).map (fun i => (0, i))
              is_directed := false } := by
  have hlt : ¬ n < 1 := by omega
  simp [star_graph, _validate_num_nodes, hlt]

theorem mem_combinations2 (l : List Nat) (e : Nat × Nat) (he : e ∈ combinations2 l) :
    e.1 ∈ l ∧ e.2 ∈ l := by
  induction l with
  | nil => cases he
  | cons x xs ih =>
    simp only [combinations2, List.mem_append] at he
    rcases he with h | h
    · obtain ⟨y, hy, rfl⟩ := List.mem_map.mp h
      exact ⟨List.mem_cons_self x xs, List.mem_cons_of_mem x hy⟩
    · obtain ⟨h1, h2⟩ := ih h
      exact ⟨List.mem_cons_of_mem x h1, List.mem_cons_of_mem x h2⟩

/-- C10: constructor well-formedness — every graph returned by `path_graph`,
`cycle_graph`, `complete_graph` or `star_graph` on a valid node count `n` has
nodes equal to the contiguous range `0..n-1` (in particular without
duplicates) and every edge endpoint a member of its nodes, so it satisfies
the preconditions of `adjacency_dict`, `adjacency_matrix` and the degree
functions. -/
theorem constructors_well_formed (n : Int) (d : Bool) (h : 1 ≤ n) :
    (∃ g, path_graph (.int n) d = .ok g ∧ g.nodes = List.range n.toNat ∧
      g.nodes.Nodup ∧ ∀ e ∈ g.edges, e.1 ∈ g.nodes ∧ e.2 ∈ g.nodes) ∧
    (∃ g, cycle_graph (.int n) d = .ok g ∧ g.nodes = List.range n.toNat ∧
      g.nodes.Nodup ∧ ∀ e ∈ g.edges, e.1 ∈ g.nodes ∧ e.2 ∈ g.nodes) ∧
    (∃ g, complete_graph (.int n) = .ok g ∧ g.nodes = List.range n.toNat ∧
      g.nodes.Nodup ∧ ∀ e ∈ g.edges, e.1 ∈ g.nodes ∧ e.2 ∈ g.nodes) ∧
    (∃ g, star_graph (.int n) = .ok g ∧ g.nodes = List.range n.toNat ∧
      g.nodes.Nodup ∧ ∀ e ∈ g.edges, e.1 ∈ g.nodes ∧ e.2 ∈ g.nodes) := by
  refine ⟨⟨_, path_graph_eq n d h, rfl, List.nodup_range _, ?_⟩,
    ⟨_, cycle_graph_eq n d h, rfl, List.nodup_range _, ?_⟩,
    ⟨_, complete_graph_eq n h, rfl, List.nodup_range _, ?_⟩,
    ⟨_, star_graph_eq n h, rfl, List.nodup_range _, ?_⟩⟩
  · intro e he
    obtain ⟨i, hi, rfl⟩ := List.mem_map.mp he
    rw [List.mem_range] at hi
    simp only [List.mem_range]
    omega
  · intro e he
    rcases List.mem_append.mp he with h1 | h1
    · obtain ⟨i, hi, rfl⟩ := List.mem_map.mp h1
      rw [List.mem_range] at hi
      simp only [List.mem_range]
      omega
    · rw [List.mem_singleton] at h1
      subst h1
      simp only [List.mem_range]
      omega
  · intro e he
    exact mem_combinations2 (List.range n.toNat) e he
  · intro e he
    obtain ⟨i, hi, rfl⟩ := List.mem_map.mp he
    rw [List.mem_range'_1] at hi
    simp only [List.mem_range]
    omega

theorem constructors_well_formed_witness :
    (1 : Int) ≤ 3 ∧
    ((∃ g, path_graph (.int 3) false = .ok g ∧ g.nodes = List.range (3 : Int).toNat ∧
      g.nodes.Nodup ∧ ∀ e ∈ g.edges, e.1 ∈ g.nodes ∧ e.2 ∈ g.nodes) ∧
    (∃ g, cycle_graph (.int 3) false = .ok g ∧ g.nodes = List.range (3 : Int).toNat ∧
      g.nodes.Nodup ∧ ∀ e ∈ g.edges, e.1 ∈ g.nodes ∧ e.2 ∈ g.nodes) ∧
    (∃ g, complete_graph (.int 3) = .ok g ∧ g.nodes = List.range (3 : Int).toNat ∧
      g.nodes.Nodup ∧ ∀ e ∈ g.edges, e.1 ∈ g.nodes ∧ e.2 ∈ g.nodes) ∧
    (∃ g, star_graph (.int 3) = .ok g ∧ g.nodes = List.range (3 : Int).toNat ∧
      g.nodes.Nodup ∧ ∀ e ∈ g.edges, e.1 ∈ g.nodes ∧ e.2 ∈ g.nodes)) :=
  ⟨by decide, constructors_well_formed 3 false (by decide)⟩

/-! ### Combinatorics of `combinations2` -/

theorem two_mul_length_combinations2 (l : List Nat) :
    2 * (combinations2 l).length = l.length * (l.length - 1) := by
  induction l with
  | nil => rfl
  | cons x xs ih =>
    have hk : xs.length * (xs.length - 1) + 2 * xs.length = (xs.length + 1) * xs.length := by
      cases hxs : xs.length with
      | zero => simp
      | succ k =>
        simp only [Nat.succ_sub_one]
        ring
    simp only [combinations2, List.length_append, List.length_map, List.length_cons,
      Nat.add_sub_cancel]
    linarith [ih, hk]

theorem length_combinations2 (l : List Nat) :
    (combinations2 l).length = l.length * (l.length - 1) / 2 := by
  have h := two_mul_length_combinations2 l
  generalize hA : l.length * (l.length - 1) = A at h ⊢
  omega

theorem combinations2_increasing (l : List Nat) (hl : l.Pairwise (· < ·)) :
    ∀ e ∈ combinations2 l, e.1 < e.2 := by
  induction l with
  | nil => intro e he; cases he
  | cons x xs ih =>
    rw [List.pairwise_cons] at hl
    intro e he
    simp only [combinations2, List.mem_append] at he
    rcases he with h | h
    · obtain ⟨y, hy, rfl⟩ := List.mem_map.mp h
      exact hl.1 y hy
    · exact ih hl.2 e h

theorem combinations2_pairwise_ne (l : List Nat) (hl : l.Pairwise (· < ·)) :
    (combinations2 l).Pairwise
      (fun e f => ¬ ((e.1 = f.1 ∧ e.2 = f.2) ∨ (e.1 = f.2 ∧ e.2 = f.1))) := by
  induction l with
  | nil => exact List.Pairwise.nil
  | cons x xs ih =>
    rw [List.pairwise_cons] at hl
    obtain ⟨hx, hxs⟩ := hl
    simp only [combinations2]
    rw [List.pairwise_append]
    refine ⟨?_, ih hxs, ?_⟩
    · rw [List.pairwise_map]
      refine List.Pairwise.imp_of_mem ?_ hxs
      intro a b ha hb hab
      have hxa := hx a ha
      rintro (⟨h1, h2⟩ | ⟨h1, h2⟩) <;> simp at h1 h2 <;> omega
    · intro p hp f hf
      obtain ⟨a, ha, rfl⟩ := List.mem_map.mp hp
      obtain ⟨hf1, hf2⟩ := mem_combinations2 xs f hf
      have h1 := hx f.1 hf1
      have h2 := hx f.2 hf2
      rintro (⟨hc1, hc2⟩ | ⟨hc1, hc2⟩) <;> simp at hc1 hc2 <;> omega

theorem countP_beq_eq_one (xs : List Nat) (v : Nat) (hnd : xs.Nodup) (hv : v ∈ xs) :
    xs.countP (fun a => v == a) = 1 := by
  induction xs with
  | nil => cases hv
  | cons x xs ih =>
    rw [List.nodup_cons] at hnd
    rw [List.countP_cons]
    by_cases h : v = x
    · subst h
      have hz : xs.countP (fun a => v == a) = 0 := by
        rw [List.countP_eq_zero]
        intro a ha
        simp only [beq_iff_eq]
        intro hc
        rw [hc] at hnd
        exact hnd.1 ha
      simp [hz]
    · have hv' : v ∈ xs := by
        rcases List.mem_cons.mp hv with h1 | h1
        · exact absurd h1 h
        · exact h1
      simp [ih hnd.2 hv', h]

theorem count_combinations2_zero (l : List Nat) (v : Nat) (hv : v ∉ l) :
    (combinations2 l).countP (fun e => v == e.1) = 0 ∧
    (combinations2 l).countP (fun e => v == e.2) = 0 := by
  constructor
  · rw [List.countP_eq_zero]
    intro e he
    obtain ⟨h1, h2⟩ := mem_combinations2 l e he
    simp only [beq_iff_eq]
    intro hc
    rw [hc] at hv
    exact hv h1
  · rw [List.countP_eq_zero]
    intro e he
    obtain ⟨h1, h2⟩ := mem_combinations2 l e he
    simp only [beq_iff_eq]
    intro hc
    rw [hc] at hv
    exact hv h2

theorem degree_count_combinations2 (l : List Nat) (v : Nat) (hl : l.Nodup) (hv : v ∈ l) :
    (combinations2 l).countP (fun e => v == e.1)
      + (combinations2 l).countP (fun e => v == e.2) = l.length - 1 := by
  induction l with
  | nil => cases hv
  | cons x xs ih =>
    rw [List.nodup_cons] at hl
    obtain ⟨hx, hxs⟩ := hl
    simp only [combinations2, List.countP_append, List.countP_map, List.length_cons,
      Nat.add_sub_cancel]
    by_cases hvx : v = x
    · subst hvx
      have hfst : List.countP ((fun e : Nat × Nat => v == e.1) ∘ (fun y => (v, y))) xs
          = xs.length := by
        rw [List.countP_eq_length]
        intro a ha
        simp
      have hsnd : List.countP ((fun e : Nat × Nat => v == e.2) ∘ (fun y => (v, y))) xs = 0 := by
        rw [List.countP_eq_zero]
        intro a ha
        simp only [Function.comp_apply, beq_iff_eq]
        intro hc
        rw [hc] at hx
        exact hx ha
      have hz := count_combinations2_zero xs v hx
      rw [hfst, hsnd, hz.1, hz.2]
      omega
    · have hv' : v ∈ xs := by
        rcases List.mem_cons.mp hv with h1 | h1
        · exact absurd h1 hvx
        · exact h1
      have hfst : List.countP ((fun e : Nat × Nat => v == e.1) ∘ (fun y => (x, y))) xs = 0 := by
        rw [List.countP_eq_zero]
        intro a ha
        simp only [Function.comp_apply, beq_iff_eq]
        exact hvx
      have hsnd : List.countP ((fun e : Nat × Nat => v == e.2) ∘ (fun y => (x, y))) xs = 1 :=
        countP_beq_eq_one xs v hxs hv'
      have hpos := List.length_pos_of_mem hv'
      have hih := ih hxs hv'
      rw [hfst, hsnd]
      omega

/-- C7: for every integer `n >= 1`, `complete_graph(n)` returns an undirected
graph on nodes `0..n-1` with exactly `n*(n-1)/2` edges, each edge a pair of
distinct nodes, no two edges equal as unordered pairs, and
`degrees(complete_graph(n))` maps every node to `n-1`. -/
theorem complete_graph_spec (n : Int) (h : 1 ≤ n) :
    ∃ g, complete_graph (.int n) = .ok g ∧
      g.is_directed = false ∧
      g.nodes = List.range n.toNat ∧
      g.edges.length = n.toNat * (n.toNat - 1) / 2 ∧
      (∀ e ∈ g.edges, e.1 ≠ e.2) ∧
      g.edges.Pairwise (fun e f => ¬ ((e.1 = f.1 ∧ e.2 = f.2) ∨ (e.1 = f.2 ∧ e.2 = f.1))) ∧
      ∃ d, degrees g = .ok d ∧ ∀ v ∈ g.nodes, d.lookup v = some (n.toNat - 1) := by
  refine ⟨{ nodes := List.range n.toNat
            edges := combinations2 (List.range n.toNat)
            is_directed := false },
    complete_graph_eq n h, rfl, rfl, ?_, ?_, ?_, ?_⟩
  · show (combinations2 (List.range n.toNat)).length = n.toNat * (n.toNat - 1) / 2
    rw [length_combinations2, List.length_range]
  · show ∀ e ∈ combinations2 (List.range n.toNat), e.1 ≠ e.2
    intro e he
    exact Nat.ne_of_lt (combinations2_increasing _ (List.pairwise_lt_range _) e he)
  · show (combinations2 (List.range n.toNat)).Pairwise _
    exact combinations2_pairwise_ne _ (List.pairwise_lt_range _)
  · refine ⟨_degrees { nodes := List.range n.toNat
                       edges := combinations2 (List.range n.toNat)
                       is_directed := false }, by simp [degrees], ?_⟩
    intro v hv
    have hlk := adjacency_dict_lookup
      { nodes := List.range n.toNat
        edges := combinations2 (List.range n.toNat)
        is_directed := false } v hv
    unfold _degrees
    rw [lookup_map_length, hlk, Option.map_some']
    have hlen := length_flatMap_specEdgeContrib false v (combinations2 (List.range n.toNat))
    simp only [if_neg, Bool.false_eq_true, if_false] at hlen
    have hcnt := degree_count_combinations2 (List.range n.toNat) v (List.nodup_range _) hv
    rw [List.length_range] at hcnt
    have hsn : (specNeighbors
        { nodes := List.range n.toNat
          edges := combinations2 (List.range n.toNat)
          is_directed := false } v).length
        = ((combinations2 (List.range n.toNat)).flatMap (specEdgeContrib false v)).length := rfl
    rw [hsn, hlen, hcnt]

theorem complete_graph_spec_witness :
    (1 : Int) ≤ 4 ∧
    ∃ g, complete_graph (.int 4) = .ok g ∧
      g.is_directed = false ∧
      g.nodes = List.range (4 : Int).toNat ∧
      g.edges.length = (4 : Int).toNat * ((4 : Int).toNat - 1) / 2 ∧
      (∀ e ∈ g.edges, e.1 ≠ e.2) ∧
      g.edges.Pairwise (fun e f => ¬ ((e.1 = f.1 ∧ e.2 = f.2) ∨ (e.1 = f.2 ∧ e.2 = f.1))) ∧
      ∃ d, degrees g = .ok d ∧ ∀ v ∈ g.nodes, d.lookup v = some ((4 : Int).toNat - 1) :=
  ⟨by decide, complete_graph_spec 4 (by decide)⟩

/-! ### Matrix machinery for `adjacency_matrix` -/

/-- Entry `m[u][v]` of a row-major matrix, reading out of range as `0`. -/
def matEntry (m : List (List Nat)) (u v : Nat) : Nat :=
  (m.getD u []).getD v 0

/-- The shape of an `n x n` matrix. -/
def matShape (m : List (List Nat)) (n : Nat) : Prop :=
  m.length = n ∧ ∀ row ∈ m, row.length = n

theorem getD_set_self {α : Type} (l : List α) (i : Nat) (a d : α) (h : i < l.length) :
    (l.set i a).getD i d = a := by
  simp [List.getD_eq_getElem?_getD, List.getElem?_set_self, h]

theorem getD_set_ne {α : Type} (l : List α) (i j : Nat) (a d : α) (h : i ≠ j) :
    (l.set i a).getD j d = l.getD j d := by
  simp [List.getD_eq_getElem?_getD, List.getElem?_set_ne, h]

theorem matShape_row_length (m : List (List Nat)) (n : Nat) (hm : matShape m n)
    (i : Nat) (hi : i < n) : (m.getD i []).length = n := by
  have hlen : i < m.length := by rw [hm.1]; exact hi
  rw [List.getD_eq_getElem _ _ hlen]
  exact hm.2 _ (List.getElem_mem hlen)

theorem matShape_matIncr (m : List (List Nat)) (n i j : Nat) (hm : matShape m n)
    (hi : i < n) : matShape (matIncr m i j) n := by
  constructor
  · simp [matIncr, List.length_set, hm.1]
  · intro row hrow
    rcases List.mem_or_eq_of_mem_set hrow with h1 | h1
    · exact hm.2 row h1
    · subst h1
      rw [List.length_set]
      exact matShape_row_length m n hm i hi

theorem matEntry_matIncr (m : List (List Nat)) (n : Nat) (hm : matShape m n)
    (i j u v : Nat) (hi : i < n) (hj : j < n) (hu : u < n) (hv : v < n) :
    matEntry (matIncr m i j) u v
      = matEntry m u v + (if u = i ∧ v = j then 1 else 0) := by
  have him : i < m.length := by rw [hm.1]; exact hi
  unfold matEntry matIncr
  by_cases hui : u = i
  · subst hui
    rw [getD_set_self _ _ _ _ him]
    by_cases hvj : v = j
    · subst hvj
      have hjr : v < (m.getD u []).length := by
        rw [matShape_row_length m n hm u hu]; exact hv
      rw [getD_set_self _ _ _ _ hjr]
      simp
    · rw [getD_set_ne _ _ _ _ _ (Ne.symm hvj)]
      simp [hvj]
  · rw [getD_set_ne _ _ _ _ _ (Ne.symm hui)]
    simp [hui]

theorem matShape_foldl_matInsertEdge (dir : Bool) (n : Nat) :
    ∀ (edges : List (Nat × Nat)) (m : List (List Nat)), matShape m n →
      (∀ e ∈ edges, e.1 < n ∧ e.2 < n) →
      matShape (edges.foldl (matInsertEdge dir) m) n := by
  intro edges
  induction edges with
  | nil => intro m hm _; exact hm
  | cons e rest ih =>
    intro m hm hends
    obtain ⟨he1, he2⟩ := hends e (List.mem_cons_self e rest)
    have hends' : ∀ x ∈ rest, x.1 < n ∧ x.2 < n :=
      fun x hx => hends x (List.mem_cons_of_mem e hx)
    rw [List.foldl_cons]
    cases dir with
    | true =>
      exact ih _ (matShape_matIncr m n e.1 e.2 hm he1) hends'
    | false =>
      have hm1 : matShape (matIncr m e.1 e.2) n := matShape_matIncr m n e.1 e.2 hm he1
      exact ih _ (matShape_matIncr _ n e.2 e.1 hm1 he2) hends'

theorem matEntry_foldl_matInsertEdge (dir : Bool) (n u v : Nat) (hu : u < n) (hv : v < n) :
    ∀ (edges : List (Nat × Nat)) (m : List (List Nat)), matShape m n →
      (∀ e ∈ edges, e.1 < n ∧ e.2 < n) →
      matEntry (edges.foldl (matInsertEdge dir) m) u v
        = matEntry m u v + edges.countP (fun e => e == (u, v))
          + (if dir then 0 else edges.countP (fun e => e == (v, u))) := by
  intro edges
  induction edges with
  | nil => intro m hm _; cases dir <;> simp
  | cons e rest ih =>
    intro m hm hends
    obtain ⟨he1, he2⟩ := hends e (List.mem_cons_self e rest)
    have hends' : ∀ x ∈ rest, x.1 < n ∧ x.2 < n :=
      fun x hx => hends x (List.mem_cons_of_mem e hx)
    have hbe1 : ((e == (u, v)) = true) = (u = e.1 ∧ v = e.2) := by
      apply propext
      rw [beq_iff_eq]
      obtain ⟨a, b⟩ := e
      rw [Prod.mk.injEq]
      constructor <;> rintro ⟨rfl, rfl⟩ <;> exact ⟨rfl, rfl⟩
    have hbe2 : ((e == (v, u)) = true) = (u = e.2 ∧ v = e.1) := by
      apply propext
      rw [beq_iff_eq]
      obtain ⟨a, b⟩ := e
      rw [Prod.mk.injEq]
      constructor <;> rintro ⟨rfl, rfl⟩ <;> exact ⟨rfl, rfl⟩
    rw [List.foldl_cons]
    cases dir with
    | true =>
      have hshape : matShape (matInsertEdge true m e) n := matShape_matIncr m n e.1 e.2 hm he1
      rw [ih _ hshape hends']
      have hstep : matEntry (matInsertEdge true m e) u v
          = matEntry m u v + (if u = e.1 ∧ v = e.2 then 1 else 0) :=
        matEntry_matIncr m n hm e.1 e.2 u v he1 he2 hu hv
      rw [hstep, List.countP_cons]
      simp only [hbe1]
      by_cases hc : u = e.1 ∧ v = e.2 <;> simp [hc] <;> omega
    | false =>
      have hm1 : matShape (matIncr m e.1 e.2) n := matShape_matIncr m n e.1 e.2 hm he1
      have hshape : matShape (matInsertEdge false m e) n :=
        matShape_matIncr _ n e.2 e.1 hm1 he2
      rw [ih _ hshape hends']
      have hstep1 : matEntry (matIncr m e.1 e.2) u v
          = matEntry m u v + (if u = e.1 ∧ v = e.2 then 1 else 0) :=
        matEntry_matIncr m n hm e.1 e.2 u v he1 he2 hu hv
      have hstep2 : matEntry (matInsertEdge false m e) u v
          = matEntry (matIncr m e.1 e.2) u v + (if u = e.2 ∧ v = e.1 then 1 else 0) :=
        matEntry_matIncr _ n hm1 e.2 e.1 u v he2 he1 hu hv
      rw [hstep2, hstep1, List.countP_cons, List.countP_cons]
      simp only [hbe1, hbe2]
      by_cases hc1 : u = e.1 ∧ v = e.2 <;> by_cases hc2 : u = e.2 ∧ v = e.1 <;>
        simp [hc1, hc2] <;> omega

theorem matShape_zeroMatrix (nodes : List Nat) :
    matShape (nodes.map (fun _ => nodes.map (fun _ => 0))) nodes.length := by
  constructor
  · simp
  · intro row hrow
    obtain ⟨x, hx, rfl⟩ := List.mem_map.mp hrow
    simp

theorem matEntry_zeroMatrix (nodes : List Nat) (u v : Nat) :
    matEntry (nodes.map (fun _ => nodes.map (fun _ => 0))) u v = 0 := by
  unfold matEntry
  have houter : (nodes.map (fun _ => nodes.map (fun _ => 0))).getD u []
        = nodes.map (fun _ => (0 : Nat)) ∨
      (nodes.map (fun _ => nodes.map (fun _ => 0))).getD u [] = [] := by
    by_cases hu : u < (nodes.map (fun _ => nodes.map (fun _ => 0))).length
    · left
      rw [List.getD_eq_getElem _ _ hu, List.getElem_map]
    · right
      exact List.getD_eq_default _ _ (Nat.le_of_not_lt hu)
  rcases houter with h | h <;> rw [h]
  · by_cases hv : v < (nodes.map (fun _ => (0 : Nat))).length
    · rw [List.getD_eq_getElem _ _ hv, List.getElem_map]
    · exact List.getD_eq_default _ _ (Nat.le_of_not_lt hv)
  · rfl

/-- C8: for every graph whose nodes are exactly the contiguous range `0..n-1`
and whose edge endpoints all lie in that range, `adjacency_matrix(graph)`
returns an `n x n` matrix in which entry `[u][v]` equals the number of edges
`(u, v)` in the edge list, plus additionally the number of edges `(v, u)` when
`is_directed` is false (so an undirected self-loop `(u, u)` contributes 2 to
entry `[u][u]`). -/
theorem adjacency_matrix_spec (G : Graph) (n : Nat) (hnodes : G.nodes = List.range n)
    (hends : ∀ e ∈ G.edges, e.1 < n ∧ e.2 < n) :
    (adjacency_matrix G).length = n ∧
    (∀ row ∈ adjacency_matrix G, row.length = n) ∧
    ∀ u, u < n → ∀ v, v < n →
      matEntry (adjacency_matrix G) u v
        = G.edges.count (u, v) + (if G.is_directed then 0 else G.edges.count (v, u)) := by
  have hlen : G.nodes.length = n := by rw [hnodes, List.length_range]
  have hm0 : matShape (G.nodes.map (fun _ => G.nodes.map (fun _ => 0))) n := by
    rw [show n = G.nodes.length from hlen.symm]
    exact matShape_zeroMatrix G.nodes
  have hshape : matShape (adjacency_matrix G) n :=
    matShape_foldl_matInsertEdge G.is_directed n G.edges _ hm0 hends
  refine ⟨hshape.1, hshape.2, ?_⟩
  intro u hu v hv
  have h := matEntry_foldl_matInsertEdge G.is_directed n u v hu hv G.edges _ hm0 hends
  rw [show (adjacency_matrix G)
      = G.edges.foldl (matInsertEdge G.is_directed)
          (G.nodes.map (fun _ => G.nodes.map (fun _ => 0))) from rfl, h,
    matEntry_zeroMatrix, Nat.zero_add]
  rfl

theorem adjacency_matrix_spec_witness :
    ((⟨[0, 1], [(0, 0), (0, 1)], false⟩ : Graph).nodes = List.range 2 ∧
      ∀ e ∈ ([(0, 0), (0, 1)] : List (Nat × Nat)), e.1 < 2 ∧ e.2 < 2) ∧
    ((adjacency_matrix ⟨[0, 1], [(0, 0), (0, 1)], false⟩).length = 2 ∧
      (∀ row ∈ adjacency_matrix ⟨[0, 1], [(0, 0), (0, 1)], false⟩, row.length = 2) ∧
      ∀ u, u < 2 → ∀ v, v < 2 →
        matEntry (adjacency_matrix ⟨[0, 1], [(0, 0), (0, 1)], false⟩) u v
          = ([(0, 0), (0, 1)] : List (Nat × Nat)).count (u, v)
            + (if (⟨[0, 1], [(0, 0), (0, 1)], false⟩ : Graph).is_directed then 0
               else ([(0, 0), (0, 1)] : List (Nat × Nat)).count (v, u))) :=
  ⟨⟨by decide, by decide⟩,
    adjacency_matrix_spec ⟨[0, 1], [(0, 0), (0, 1)], false⟩ 2 (by decide) (by decide)⟩

/-! ### Python `min`/`max` machinery -/

theorem foldl_min_le (l : List Nat) (a : Nat) :
    l.foldl Nat.min a ≤ a ∧ ∀ x ∈ l, l.foldl Nat.min a ≤ x := by
  induction l generalizing a with
  | nil => exact ⟨Nat.le_refl a, fun x hx => absurd hx (List.not_mem_nil x)⟩
  | cons y ys ih =>
    have h := ih (Nat.min a y)
    rw [List.foldl_cons]
    constructor
    · exact Nat.le_trans h.1 (Nat.min_le_left a y)
    · intro x hx
      rcases List.mem_cons.mp hx with rfl | hx'
      · exact Nat.le_trans h.1 (Nat.min_le_right a x)
      · exact h.2 x hx'

theorem foldl_min_mem (l : List Nat) (a : Nat) :
    l.foldl Nat.min a = a ∨ l.foldl Nat.min a ∈ l := by
  induction l generalizing a with
  | nil => left; rfl
  | cons y ys ih =>
    rw [List.foldl_cons]
    rcases ih (Nat.min a y) with h | h
    · rw [h]
      by_cases hay : a ≤ y
      · left
        exact Nat.min_eq_left hay
      · right
        have hmin : a.min y = y := by unfold Nat.min; omega
        rw [hmin]
        exact List.mem_cons_self y ys
    · right
      exact List.mem_cons_of_mem y h

theorem pyMin_spec (l : List Nat) (hl : l ≠ []) :
    ∃ v, pyMin l = .ok v ∧ v ∈ l ∧ ∀ x ∈ l, v ≤ x := by
  cases l with
  | nil => exact absurd rfl hl
  | cons x xs =>
    refine ⟨xs.foldl Nat.min x, rfl, ?_, ?_⟩
    · rcases foldl_min_mem xs x with h | h
      · rw [h]
        exact List.mem_cons_self x xs
      · exact List.mem_cons_of_mem x h
    · intro y hy
      rcases List.mem_cons.mp hy with rfl | hy'
      · exact (foldl_min_le xs y).1
      · exact (foldl_min_le xs x).2 y hy'

theorem foldl_max_ge (l : List Nat) (a : Nat) :
    a ≤ l.foldl Nat.max a ∧ ∀ x ∈ l, x ≤ l.foldl Nat.max a := by
  induction l generalizing a with
  | nil => exact ⟨Nat.le_refl a, fun x hx => absurd hx (List.not_mem_nil x)⟩
  | cons y ys ih =>
    have h := ih (Nat.max a y)
    rw [List.foldl_cons]
    constructor
    · exact Nat.le_trans (Nat.le_max_left a y) h.1
    · intro x hx
      rcases List.mem_cons.mp hx with rfl | hx'
      · exact Nat.le_trans (Nat.le_max_right a x) h.1
      · exact h.2 x hx'

theorem foldl_max_mem (l : List Nat) (a : Nat) :
    l.foldl Nat.max a = a ∨ l.foldl Nat.max a ∈ l := by
  induction l generalizing a with
  | nil => left; rfl
  | cons y ys ih =>
    rw [List.foldl_cons]
    rcases ih (Nat.max a y) with h | h
    · rw [h]
      by_cases hay : y ≤ a
      · left
        exact Nat.max_eq_left hay
      · right
        have hmax : a.max y = y := by unfold Nat.max; omega
        rw [hmax]
        exact List.mem_cons_self y ys
    · right
      exact List.mem_cons_of_mem y h

theorem pyMax_spec (l : List Nat) (hl : l ≠ []) :
    ∃ v, pyMax l = .ok v ∧ v ∈ l ∧ ∀ x ∈ l, x ≤ v := by
  cases l with
  | nil => exact absurd rfl hl
  | cons x xs =>
    refine ⟨xs.foldl Nat.max x, rfl, ?_, ?_⟩
    · rcases foldl_max_mem xs x with h | h
      · rw [h]
        exact List.mem_cons_self x xs
      · exact List.mem_cons_of_mem x h
    · intro y hy
      rcases List.mem_cons.mp hy with rfl | hy'
      · exact (foldl_max_ge xs y).1
      · exact (foldl_max_ge xs x).2 y hy'

theorem adjacency_dict_length (G : Graph) :
    (adjacency_dict G).length = G.nodes.length := by
  have hfold : ∀ (edges : List (Nat × Nat)) (adj : List (Nat × List Nat)),
      (edges.foldl (adjInsertEdge G.is_directed) adj).length = adj.length := by
    intro edges
    induction edges with
    | nil => intro adj; rfl
    | cons e rest ih =>
      intro adj
      rw [List.foldl_cons, ih]
      cases G.is_directed <;> simp [adjInsertEdge, adjAppend]
  rw [adjacency_dict, hfold, emptyAdj, List.length_map]

theorem dictValues_degrees_length (H : Graph) :
    (dictValues (_degrees H)).length = H.nodes.length := by
  unfold dictValues _degrees
  rw [List.length_map, List.length_map, adjacency_dict_length]

/-- C9: for every graph satisfying the matching directedness precondition of
the underlying degree function, each of the eight aggregate functions raises
an empty-aggregate value error when the graph has zero nodes, and otherwise
returns the minimum (respectively maximum) of the values of the corresponding
degree mapping. -/
theorem degree_aggregates_spec (G : Graph) (hnodup : G.nodes.Nodup)
    (hends : ∀ e ∈ G.edges, e.1 ∈ G.nodes ∧ e.2 ∈ G.nodes) :
    (if G.is_directed then
      (if G.nodes = [] then
        min_out_degree G = .error (.valueError "min() arg is an empty sequence") ∧
        max_out_degree G = .error (.valueError "max() arg is an empty sequence") ∧
        min_in_degree G = .error (.valueError "min() arg is an empty sequence") ∧
        max_in_degree G = .error (.valueError "max() arg is an empty sequence") ∧
        min_total_degree G = .error (.valueError "min() arg is an empty sequence") ∧
        max_total_degree G = .error (.valueError "max() arg is an empty sequence")
      else
        (∃ d v, out_degrees G = .ok d ∧ min_out_degree G = .ok v ∧
          v ∈ dictValues d ∧ ∀ x ∈ dictValues d, v ≤ x) ∧
        (∃ d v, out_degrees G = .ok d ∧ max_out_degree G = .ok v ∧
          v ∈ dictValues d ∧ ∀ x ∈ dictValues d, x ≤ v) ∧
        (∃ d v, in_degrees G = .ok d ∧ min_in_degree G = .ok v ∧
          v ∈ dictValues d ∧ ∀ x ∈ dictValues d, v ≤ x) ∧
        (∃ d v, in_degrees G = .ok d ∧ max_in_degree G = .ok v ∧
          v ∈ dictValues d ∧ ∀ x ∈ dictValues d, x ≤ v) ∧
        (∃ d v, total_degrees G = .ok d ∧ min_total_degree G = .ok v ∧
          v ∈ dictValues d ∧ ∀ x ∈ dictValues d, v ≤ x) ∧
        (∃ d v, total_degrees G = .ok d ∧ max_total_degree G = .ok v ∧
          v ∈ dictValues d ∧ ∀ x ∈ dictValues d, x ≤ v))
    else
      (if G.nodes = [] then
        min_degree G = .error (.valueError "min() arg is an empty sequence") ∧
        max_degree G = .error (.valueError "max() arg is an empty sequence")
      else
        (∃ d v, degrees G = .ok d ∧ min_degree G = .ok v ∧
          v ∈ dictValues d ∧ ∀ x ∈ dictValues d, v ≤ x) ∧
        (∃ d v, degrees G = .ok d ∧ max_degree G = .ok v ∧
          v ∈ dictValues d ∧ ∀ x ∈ dictValues d, x ≤ v))) := by
  have hvalsG : (dictValues (_degrees G)).length = G.nodes.length :=
    dictValues_degrees_length G
  have hvalsR : (dictValues (_degrees (reversed_graph G))).length = G.nodes.length :=
    dictValues_degrees_length (reversed_graph G)
  have hvalsU : (dictValues (_degrees (undirected_graph G))).length = G.nodes.length :=
    dictValues_degrees_length (undirected_graph G)
  cases hd : G.is_directed with
  | false =>
    rw [if_neg Bool.false_ne_true]
    have hdeg : degrees G = .ok (_degrees G) := by simp [degrees, hd]
    by_cases hni : G.nodes = []
    · rw [if_pos hni]
      have hemptyG : dictValues (_degrees G) = [] :=
        List.length_eq_zero.mp (by rw [hvalsG, hni]; rfl)
      constructor
      · simp [min_degree, hdeg, hemptyG, pyMin]
      · simp [max_degree, hdeg, hemptyG, pyMax]
    · rw [if_neg hni]
      have hneG : dictValues (_degrees G) ≠ [] := by
        intro hc
        apply hni
        rw [← List.length_eq_zero, ← hvalsG, hc]
        rfl
      obtain ⟨v1, hv1, hm1, hle1⟩ := pyMin_spec _ hneG
      obtain ⟨v2, hv2, hm2, hge2⟩ := pyMax_spec _ hneG
      exact ⟨⟨_degrees G, v1, hdeg, by simp [min_degree, hdeg, hv1], hm1, hle1⟩,
        ⟨_degrees G, v2, hdeg, by simp [max_degree, hdeg, hv2], hm2, hge2⟩⟩
  | true =>
    rw [if_pos rfl]
    have hOR : out_degrees (reversed_graph G) = .ok (_degrees (reversed_graph G)) := rfl
    have hDU : degrees (undirected_graph G) = .ok (_degrees (undirected_graph G)) := rfl
    have hout : out_degrees G = .ok (_degrees G) := by simp [out_degrees, hd]
    have hin : in_degrees G = .ok (_degrees (reversed_graph G)) := by
      simp [in_degrees, hd, hOR]
    have htot : total_degrees G = .ok (_degrees (undirected_graph G)) := by
      simp [total_degrees, hd, hDU]
    by_cases hni : G.nodes = []
    · rw [if_pos hni]
      have hemptyG : dictValues (_degrees G) = [] :=
        List.length_eq_zero.mp (by rw [hvalsG, hni]; rfl)
      have hemptyR : dictValues (_degrees (reversed_graph G)) = [] :=
        List.length_eq_zero.mp (by rw [hvalsR, hni]; rfl)
      have hemptyU : dictValues (_degrees (undirected_graph G)) = [] :=
        List.length_eq_zero.mp (by rw [hvalsU, hni]; rfl)
      refine ⟨?_, ?_, ?_, ?_, ?_, ?_⟩
      · simp [min_out_degree, hout, hemptyG, pyMin]
      · simp [max_out_degree, hout, hemptyG, pyMax]
      · simp [min_in_degree, hin, hemptyR, pyMin]
      · simp [max_in_degree, hin, hemptyR, pyMax]
      · simp [min_total_degree, htot, hemptyU, pyMin]
      · simp [max_total_degree, htot, hemptyU, pyMax]
    · rw [if_neg hni]
      have hneG : dictValues (_degrees G) ≠ [] := by
        intro hc
        apply hni
        rw [← List.length_eq_zero, ← hvalsG, hc]
        rfl
      have hneR : dictValues (_degrees (reversed_graph G)) ≠ [] := by
        intro hc
        apply hni
        rw [← List.length_eq_zero, ← hvalsR, hc]
        rfl
      have hneU : dictValues (_degrees (undirected_graph G)) ≠ [] := by
        intro hc
        apply hni
        rw [← List.length_eq_zero, ← hvalsU, hc]
        rfl
      obtain ⟨v1, hv1, hm1, hle1⟩ := pyMin_spec _ hneG
      obtain ⟨v2, hv2, hm2, hge2⟩ := pyMax_spec _ hneG
      obtain ⟨v3, hv3, hm3, hle3⟩ := pyMin_spec _ hneR
      obtain ⟨v4, hv4, hm4, hge4⟩ := pyMax_spec _ hneR
      obtain ⟨v5, hv5, hm5, hle5⟩ := pyMin_spec _ hneU
      obtain ⟨v6, hv6, hm6, hge6⟩ := pyMax_spec _ hneU
      exact ⟨⟨_degrees G, v1, hout, by simp [min_out_degree, hout, hv1], hm1, hle1⟩,
        ⟨_degrees G, v2, hout, by simp [max_out_degree, hout, hv2], hm2, hge2⟩,
        ⟨_degrees (reversed_graph G), v3, hin, by simp [min_in_degree, hin, hv3], hm3, hle3⟩,
        ⟨_degrees (reversed_graph G), v4, hin, by simp [max_in_degree, hin, hv4], hm4, hge4⟩,
        ⟨_degrees (undirected_graph G), v5, htot,
          by simp [min_total_degree, htot, hv5], hm5, hle5⟩,
        ⟨_degrees (undirected_graph G), v6, htot,
          by simp [max_total_degree, htot, hv6], hm6, hge6⟩⟩

theorem degree_aggregates_spec_witness :
    (([0, 1, 2] : List Nat).Nodup ∧
      ∀ e ∈ ([(0, 1), (1, 2)] : List (Nat × Nat)),
        e.1 ∈ ([0, 1, 2] : List Nat) ∧ e.2 ∈ ([0, 1, 2] : List Nat)) ∧
    ((∃ d v, out_degrees ⟨[0, 1, 2], [(0, 1), (1, 2)], true⟩ = .ok d ∧
        min_out_degree ⟨[0, 1, 2], [(0, 1), (1, 2)], true⟩ = .ok v ∧
        v ∈ dictValues d ∧ ∀ x ∈ dictValues d, v ≤ x) ∧
      (∃ d v, out_degrees ⟨[0, 1, 2], [(0, 1), (1, 2)], true⟩ = .ok d ∧
        max_out_degree ⟨[0, 1, 2], [(0, 1), (1, 2)], true⟩ = .ok v ∧
        v ∈ dictValues d ∧ ∀ x ∈ dictValues d, x ≤ v) ∧
      (∃ d v, in_degrees ⟨[0, 1, 2], [(0, 1), (1, 2)], true⟩ = .ok d ∧
        min_in_degree ⟨[0, 1, 2], [(0, 1), (1, 2)], true⟩ = .ok v ∧
        v ∈ dictValues d ∧ ∀ x ∈ dictValues d, v ≤ x) ∧
      (∃ d v, in_degrees ⟨[0, 1, 2], [(0, 1), (1, 2)], true⟩ = .ok d ∧
        max_in_degree ⟨[0, 1, 2], [(0, 1), (1, 2)], true⟩ = .ok v ∧
        v ∈ dictValues d ∧ ∀ x ∈ dictValues d, x ≤ v) ∧
      (∃ d v, total_degrees ⟨[0, 1, 2], [(0, 1), (1, 2)], true⟩ = .ok d ∧
        min_total_degree ⟨[0, 1, 2], [(0, 1), (1, 2)], true⟩ = .ok v ∧
        v ∈ dictValues d ∧ ∀ x ∈ dictValues d, v ≤ x) ∧
      (∃ d v, total_degrees ⟨[0, 1, 2], [(0, 1), (1, 2)], true⟩ = .ok d ∧
        max_total_degree ⟨[0, 1, 2], [(0, 1), (1, 2)], true⟩ = .ok v ∧
        v ∈ dictValues d ∧ ∀ x ∈ dictValues d, x ≤ v)) :=
  ⟨⟨by decide, by decide⟩,
    degree_aggregates_spec ⟨[0, 1, 2], [(0, 1), (1, 2)], true⟩ (by decide) (by decide)⟩
